import Mathlib

/-!
Verification of the cell-structured document converter and the sequential
execution pipeline of `src/NotebookProvider.ts`.

Text is modelled as `List Char`.  The JavaScript string operations used by the
source (`substring`, `indexOf`, `trimEnd`, `startsWith`, global `replace` of
the fixed patterns, `repeat`) are embedded as executable functions below.
Fallible code (the joiner, which dereferences `metadata` on cells that may not
carry any) returns `Option`.
-/

abbrev Text := List Char

/-- JavaScript whitespace test, restricted to the whitespace characters that
can occur in the texts handled here (space, tab, newline, carriage return). -/
def isWs (c : Char) : Bool := c == ' ' || c == '\t' || c == '\n' || c == '\r'

/-- JavaScript `String.prototype.trimEnd`: remove the maximal whitespace
suffix. -/
def trimEnd : Text → Text
  | [] => []
  | c :: rest => if (trimEnd rest).isEmpty && isWs c then [] else c :: trimEnd rest

/-- JavaScript `s.substring(a, b)` (arguments swapped when `a > b`, clamped to
the string bounds). -/
def jsSubstring (s : Text) (a b : Nat) : Text :=
  if a ≤ b then (s.drop a).take (b - a) else (s.drop b).take (a - b)

/-- JavaScript `s.substring(i)` for a possibly negative index (negative values
are clamped to `0`). -/
def jsSubstringFrom (s : Text) (i : Int) : Text := s.drop i.toNat

def indexOfAux (pat : Text) : Text → Option Nat
  | [] => if pat.isEmpty then some 0 else none
  | c :: rest =>
    if pat.isPrefixOf (c :: rest) then some 0 else (indexOfAux pat rest).map (· + 1)

/-- JavaScript `s.indexOf(pat)`: offset of the first occurrence, `-1` when
there is none. -/
def jsIndexOf (pat s : Text) : Int :=
  match indexOfAux pat s with
  | some n => (n : Int)
  | none => -1

/-- JavaScript `s.replace(/\n;; /g, '\n')` from `parseClojure`. -/
def decodeComment : Text → Text
  | '\n' :: ';' :: ';' :: ' ' :: rest => '\n' :: decodeComment rest
  | c :: rest => c :: decodeComment rest
  | [] => []

/-- JavaScript `s.replace(/\n/g, '\n;; ')` from `writeCellsToClojure`. -/
def encodeComment : Text → Text
  | [] => []
  | c :: rest =>
    if c == '\n' then c :: ';' :: ';' :: ' ' :: encodeComment rest
    else c :: encodeComment rest

/-- The `vscode.NotebookCellKind` enumeration. -/
inductive CellKind where
  | Code
  | Markup
deriving DecidableEq

/-- The `metadata` object attached to comment-derived markup cells. -/
structure CellMetadata where
  asMarkdown : Bool
  startingWhitespace : Nat
  endingWhitespace : Nat
deriving DecidableEq

/-- The cell wire shape produced by `parseClojure` and consumed by
`writeCellsToClojure` (`vscode.NotebookCellData`). -/
structure NotebookCellData where
  value : Text
  kind : CellKind
  languageId : Text
  metadata : Option CellMetadata
deriving DecidableEq

def mdLang : Text := ("markdown").data
def cljLang : Text := ("clojure").data

/-- The literal `'\n\n;; '` tested by `rangeContent.startsWith`. -/
def commentLead : Text := ("\n\n;; ").data

/-- The literal `'\n;; '` searched by `rangeContent.indexOf`. -/
def markerPattern : Text := ("\n;; ").data

/-- One step of the `allRanges.map(([start, end], index) => ...)` body of
`parseClojure`: builds the cell for the region `[start, stop)` at position
`index` of the region list. -/
def mkCell (content : Text) (index start stop : Nat) : NotebookCellData :=
  let rangeContent := jsSubstring content start stop
  if index % 2 == 0 then
    if start == stop then
      ⟨[], .Markup, mdLang, none⟩
    else if commentLead.isPrefixOf rangeContent then
      let startingWhitespace := jsIndexOf markerPattern rangeContent
      let endingWhitespace := rangeContent.length - (trimEnd rangeContent).length
      ⟨decodeComment (trimEnd (jsSubstringFrom rangeContent startingWhitespace)),
        .Markup, mdLang,
        some ⟨true, startingWhitespace.toNat, endingWhitespace⟩⟩
    else
      ⟨rangeContent, .Markup, mdLang, none⟩
  else
    ⟨rangeContent, .Code, cljLang, none⟩

/-- The `cursor.rangesForTopLevelForms().flat()` call: the span list
flattened to an offset list. -/
def flatSpans : List (Nat × Nat) → List Nat
  | [] => []
  | (s, e) :: rest => s :: e :: flatSpans rest

/-- The list `_.zip(_.dropRight([0, ...topLevelRanges], 1), topLevelRanges)` where
`topLevelRanges` is the flattened span list with `content.length` pushed. -/
def regionList (content : Text) (spans : List (Nat × Nat)) : List (Nat × Nat) :=
  let topLevelRanges := flatSpans spans ++ [content.length]
  List.zip (0 :: topLevelRanges).dropLast topLevelRanges

/-- JavaScript `Array.prototype.map` with the element index. -/
def mapWithIndex (f : Nat → α → β) : Nat → List α → List β
  | _, [] => []
  | n, a :: as => f n a :: mapWithIndex f (n + 1) as

/-- The intermediate cell list of `parseClojure`, before the
`.filter((x) => x.value.length)` step. -/
def parseRegions (content : Text) (spans : List (Nat × Nat)) : List NotebookCellData :=
  mapWithIndex (fun i r => mkCell content i r.1 r.2) 0 (regionList content spans)

/-- The splitter `parseClojure(content)`, with the top-level-form spans (supplied in the
source by the external token cursor) made an explicit argument. -/
def parseClojure (content : Text) (spans : List (Nat × Nat)) : List NotebookCellData :=
  (parseRegions content spans).filter (fun x => !x.value.isEmpty)

/-- The per-cell body of `writeCellsToClojure`.  A markup cell without a
`metadata` object makes the JavaScript source throw a `TypeError` (it reads
`x.metadata.asMarkdown` unconditionally); that failure is `none`. -/
def writeCell (x : NotebookCellData) : Option Text :=
  match x.kind with
  | .Code => some x.value
  | .Markup =>
    match x.metadata with
    | none => none
    | some m =>
      if m.asMarkdown then
        some (List.replicate m.startingWhitespace '\n' ++ encodeComment x.value
          ++ List.replicate m.endingWhitespace '\n')
      else
        some x.value

/-- The joiner `writeCellsToClojure(cells)`: map `writeCell` over the cells and join with
the empty separator; a thrown `TypeError` aborts the whole call. -/
def writeCellsToClojure : List NotebookCellData → Option Text
  | [] => some []
  | c :: rest =>
    match writeCell c, writeCellsToClojure rest with
    | some h, some t => some (h ++ t)
    | _, _ => none

/-! ## Execution pipeline (`executeAll` / `doExecution`) -/

/-- One rendered representation of an execution result
(`vscode.NotebookCellOutputItem`). -/
structure OutputItem where
  mime : Text
  payload : Text
deriving DecidableEq

/-- The error descriptor passed to `NotebookCellOutputItem.error`. -/
structure ErrorDescriptor where
  name : Text
  message : Text
deriving DecidableEq

/-- A JavaScript value thrown by the evaluator or the pretty printer:
whether it is an `Error` instance, its `name`/`message` when it is, and its
`JSON.stringify(err, undefined, 4)` rendering. -/
structure JsThrown where
  isError : Bool
  name : Text
  message : Text
  json : Text
deriving DecidableEq

/-- Outcome of one cell execution: the output list on success, the error
descriptor on failure. -/
inductive CellOutcome where
  | success (outputs : List OutputItem)
  | failure (err : ErrorDescriptor)
deriving DecidableEq

/-- One `createNotebookCellExecution` record: `start(Date.now())`,
`end(_, Date.now())`, and the rendered outcome. -/
structure ExecutionRecord where
  startedAt : Nat
  endedAt : Nat
  outcome : CellOutcome
deriving DecidableEq

/-- Behaviour of the external evaluator plus pretty printer on one cell:
either the raw response and its pretty-printed form, or a thrown value. -/
inductive EvalResult where
  | ok (response pretty : Text)
  | thrown (e : JsThrown)
deriving DecidableEq

/-- Environment for one cell execution: the evaluator/pretty-printer result,
the time spent inside `doExecution`, and the delay before `execution.start`
runs. -/
structure CellEnv where
  result : EvalResult
  duration : Nat
  gap : Nat
deriving DecidableEq

def plainMime : Text := ("text/plain").data
def mdMime : Text := ("text/markdown").data
def ednMime : Text := ("x-application/edn").data
def htmlMime : Text := ("text/html").data
def htmlMarker : Text := ("<html").data
def fenceOpen : Text := ("```clojure\n").data
def fenceClose : Text := ("\n```").data
def errorName : Text := ("error").data

/-- JavaScript `response.replace` with the anchored quote pattern: strip one leading and one trailing
literal quote character. -/
def stripQuotes (s : Text) : Text :=
  let s1 := if s.head? == some '"' then s.drop 1 else s
  if s1.getLast? == some '"' then s1.dropLast else s1

/-- The output list built on the success path of `doExecution`. -/
def successOutputs (response pretty : Text) : List OutputItem :=
  let output := [⟨plainMime, response⟩,
    ⟨mdMime, fenceOpen ++ pretty ++ fenceClose⟩,
    ⟨ednMime, response⟩]
  if htmlMarker.isPrefixOf (stripQuotes response) then
    output ++ [⟨htmlMime, stripQuotes response⟩]
  else
    output

/-- The error descriptor built on the catch path of `doExecution`:
`(err instanceof Error && err.name) || 'error'` and
`(err instanceof Error && err.message) || JSON.stringify(err, undefined, 4)`.
JavaScript `||` falls back on an empty (falsy) string. -/
def errorDescriptor (e : JsThrown) : ErrorDescriptor :=
  ⟨if e.isError && !e.name.isEmpty then e.name else errorName,
   if e.isError && !e.message.isEmpty then e.message else e.json⟩

/-- The body of `doExecution(cell, controller)` for a cell whose environment is `ce`,
entered at time `t`. -/
def doExecution (ce : CellEnv) (t : Nat) : ExecutionRecord :=
  { startedAt := t
    endedAt := t + ce.duration
    outcome :=
      match ce.result with
      | .ok response pretty => .success (successOutputs response pretty)
      | .thrown e => .failure (errorDescriptor e) }

/-- The loop `executeAll`: for each cell, await `doExecution` before the next.
`env i c` is the behaviour of the evaluator session on the `i`-th cell with
content `c`; the clock is threaded so that each cell starts only after the
previous record is complete. -/
def executeAll (env : Nat → Text → CellEnv) : List Text → Nat → Nat → List ExecutionRecord
  | [], _, _ => []
  | c :: rest, idx, t =>
    let ce := env idx c
    let r := doExecution ce (t + ce.gap)
    r :: executeAll env rest (idx + 1) r.endedAt

/-- The outcome a cell environment determines, independently of scheduling. -/
def outcomeOf (ce : CellEnv) : CellOutcome := (doExecution ce 0).outcome

/-! ## Validity of spans and separator regions (for the round-trip law) -/

/-- The `marker + space` tail `';; '` of the line-comment marker pattern. -/
def markerTail : Text := (";; ").data

/-- Every newline of `s` is immediately followed by the marker `';; '`
(so the global `replace` pair of the splitter and joiner invert each other
on `s`). -/
def markerOk : Text → Bool
  | [] => true
  | c :: rest => (c != '\n' || markerTail.isPrefixOf rest) && markerOk rest

/-- The span list is ordered and non-overlapping, lies between `p` and `len`. -/
def spansMono : Nat → List (Nat × Nat) → Nat → Prop
  | p, [], len => p ≤ len
  | p, (s, e) :: rest, len => p ≤ s ∧ s ≤ e ∧ spansMono e rest len

instance spansMonoDec : (p : Nat) → (spans : List (Nat × Nat)) → (len : Nat) →
    Decidable (spansMono p spans len)
  | p, [], len => inferInstanceAs (Decidable (p ≤ len))
  | p, (s, e) :: rest, len =>
    have : Decidable (spansMono e rest len) := spansMonoDec e rest len
    inferInstanceAs (Decidable (p ≤ s ∧ s ≤ e ∧ spansMono e rest len))

/-- The separator (even-indexed) regions determined by a span list starting at
position `p`: the gaps before, between and after the top-level forms. -/
def gaps : Nat → List (Nat × Nat) → Nat → List (Nat × Nat)
  | p, [], len => [(p, len)]
  | p, (s, e) :: rest, len => (p, s) :: gaps e rest len

/-- A separator region reconstructs exactly: it is empty, or it is
comment-derived (starts with `'\n\n;; '`), its trailing whitespace consists
solely of newline characters, and every newline of its trimmed tail is
followed by the marker. -/
def sepOk (R : Text) : Prop :=
  R = [] ∨
    (commentLead.isPrefixOf R = true ∧
      (∀ c ∈ R.drop (trimEnd R).length, c = '\n') ∧
      markerOk (trimEnd (R.drop 1)) = true)

instance sepOkDec (R : Text) : Decidable (sepOk R) := by
  unfold sepOk
  exact inferInstance

/-- The region list written with an explicit cursor `p`, equal to
`regionList` (proved below); the separator/form regions alternate by
construction. -/
def regionsAux : Nat → List (Nat × Nat) → Nat → List (Nat × Nat)
  | p, [], len => [(p, len)]
  | p, (s, e) :: rest, len => (p, s) :: (s, e) :: regionsAux e rest len

/-! ## Concrete inputs used by the scenario claims and witnesses -/

def c3text : Text := ("(+ 1 2)\n\n;; hello\n;; world\n\n(+ 3 4)").data
def c3spans : List (Nat × Nat) := [(0, 7), (28, 35)]
def c2text : Text := ("a\n(b)").data
def c2spans : List (Nat × Nat) := [(2, 5)]
def c5text : Text := ("\n\n;; a\n (x)").data
def c5spans : List (Nat × Nat) := [(8, 11)]

/-- Concrete evaluator environment: every cell evaluates to `"3"`,
pretty-printed as `"3"`, with varying durations. -/
def env0 : Nat → Text → CellEnv := fun i _ => ⟨.ok (("3").data) (("3").data), i + 2, 1⟩

def cells0 : List Text := [("(+ 1 2)").data, ("(inc 2)").data]

/-- The record `executeAll env0 cells0 0 0` produces for the first cell. -/
def rec0 : ExecutionRecord := ⟨1, 3, .success (successOutputs (("3").data) (("3").data))⟩

/-- A thrown `Error` instance whose `name` was set to the empty string. -/
def c8err : JsThrown := ⟨true, [], ("boom").data, ("\x7b\x7d").data⟩

/-- A thrown `TypeError` with ordinary non-empty `name` and `message`. -/
def c8err2 : JsThrown := ⟨true, ("TypeError").data, ("oops").data, ("\x7b\x7d").data⟩

/-! ## Helper lemmas -/

theorem take_split (l : List α) (m n : Nat) :
    l.take (m + n) = l.take m ++ (l.drop m).take n := by
  induction l generalizing m with
  | nil => simp
  | cons a as ih =>
    cases m with
    | zero => simp
    | succ k => simpa [Nat.succ_add] using ih k

theorem trimEnd_not_ws_cons (c : Char) (rest : Text) (h : isWs c = false) :
    trimEnd (c :: rest) = c :: trimEnd rest := by
  simp [trimEnd, h]

theorem trimEnd_cons_of_ne_nil (c : Char) (rest : Text) (h : ¬ trimEnd rest = []) :
    trimEnd (c :: rest) = c :: trimEnd rest := by
  simp [trimEnd, h]

theorem trimEnd_ne_nil {s : Text} {c : Char} (hc : c ∈ s) (h : isWs c = false) :
    trimEnd s ≠ [] := by
  induction s with
  | nil => cases hc
  | cons a rest ih =>
    rcases List.mem_cons.mp hc with heq | hmem
    · rw [heq] at h
      rw [trimEnd_not_ws_cons a rest h]
      exact List.cons_ne_nil _ _
    · rw [trimEnd_cons_of_ne_nil a rest (ih hmem)]
      exact List.cons_ne_nil _ _

theorem trimEnd_append (s : Text) : ∃ w, s = trimEnd s ++ w ∧ ∀ c ∈ w, isWs c = true := by
  induction s with
  | nil => exact ⟨[], rfl, by simp⟩
  | cons a rest ih =>
    obtain ⟨w, hw, hws⟩ := ih
    by_cases hnil : trimEnd rest = []
    · by_cases ha : isWs a = true
      · refine ⟨a :: rest, ?_, ?_⟩
        · simp [trimEnd, hnil, ha]
        · intro c hc
          rcases List.mem_cons.mp hc with rfl | h2
          · exact ha
          · apply hws
            rw [hnil, List.nil_append] at hw
            rwa [← hw]
      · rw [trimEnd_not_ws_cons a rest (by simpa using ha)]
        exact ⟨w, by rw [List.cons_append, ← hw], hws⟩
    · rw [trimEnd_cons_of_ne_nil a rest hnil]
      exact ⟨w, by rw [List.cons_append, ← hw], hws⟩

theorem trimEnd_decomp (s : Text) :
    s = trimEnd s ++ s.drop (trimEnd s).length ∧
      ∀ c ∈ s.drop (trimEnd s).length, isWs c = true := by
  obtain ⟨w, hw, hws⟩ := trimEnd_append s
  have hd : (trimEnd s ++ w).drop (trimEnd s).length = w := List.drop_left _ _
  rw [← hw] at hd
  rw [hd]
  exact ⟨hw, hws⟩

theorem decodeComment_head? (s : Text) : (decodeComment s).head? = s.head? := by
  rw [decodeComment.eq_def]
  split <;> rfl

theorem jsIndexOf_marker (t : Text) :
    jsIndexOf markerPattern ('\n' :: '\n' :: ';' :: ';' :: ' ' :: t) = 1 := by
  simp [jsIndexOf, indexOfAux, markerPattern, List.isPrefixOf]

theorem mapWithIndex_getElem? (f : Nat → α → β) (n : Nat) (l : List α) (i : Nat) :
    (mapWithIndex f n l)[i]? = (l[i]?).map (f (n + i)) := by
  induction l generalizing n i with
  | nil => simp [mapWithIndex]
  | cons a as ih =>
    cases i with
    | zero => simp [mapWithIndex]
    | succ j =>
      have hn : n + (j + 1) = (n + 1) + j := by omega
      simp only [mapWithIndex, List.getElem?_cons_succ, hn]
      exact ih (n + 1) j

theorem mem_mapWithIndex {f : Nat → α → β} {n : Nat} {l : List α} {b : β}
    (h : b ∈ mapWithIndex f n l) : ∃ k a, a ∈ l ∧ b = f k a := by
  induction l generalizing n with
  | nil => cases h
  | cons x xs ih =>
    rcases List.mem_cons.mp h with rfl | h2
    · exact ⟨n, x, List.mem_cons_self _ _, rfl⟩
    · obtain ⟨k, a, ha, hb⟩ := ih h2
      exact ⟨k, a, List.mem_cons_of_mem _ ha, hb⟩

theorem isPrefixOf_exists {l1 l2 : Text} (h : l1.isPrefixOf l2 = true) :
    ∃ t, l1 ++ t = l2 := by
  have hp : l1 <+: l2 := by
    simpa using List.isPrefixOf_iff_prefix.mp h
  exact hp

theorem mkCell_kind (content : Text) (k a b : Nat) :
    (mkCell content k a b).kind = if k % 2 = 0 then CellKind.Markup else CellKind.Code := by
  by_cases hk : k % 2 = 0
  · have hb : (k % 2 == 0) = true := by simpa using hk
    rw [if_pos hk]
    simp only [mkCell, hb, if_true]
    split
    · rfl
    · split <;> rfl
  · have hb : (k % 2 == 0) = false := by simpa [beq_eq_false_iff_ne] using hk
    rw [if_neg hk]
    simp only [mkCell, hb, Bool.false_eq_true, if_false]

theorem mkCell_odd (content : Text) (k a b : Nat) (hk : k % 2 = 1) :
    mkCell content k a b = ⟨jsSubstring content a b, .Code, cljLang, none⟩ := by
  have hb : (k % 2 == 0) = false := by simp [hk]
  simp only [mkCell, hb, Bool.false_eq_true, if_false]

/-- Any cell carrying metadata comes from the comment-derived branch of the
splitter: its region starts with `'\n\n;; '`, the recorded metadata is
`{asMarkdown: true, startingWhitespace: 1, endingWhitespace: |R| - |trimEnd R|}`
and the value is the decoded trimmed tail. -/
theorem mkCell_metadata_eq (content : Text) (k a b : Nat) (m : CellMetadata)
    (h : (mkCell content k a b).metadata = some m) :
    ∃ t, jsSubstring content a b = '\n' :: '\n' :: ';' :: ';' :: ' ' :: t ∧
      m = ⟨true, 1,
        (jsSubstring content a b).length - (trimEnd (jsSubstring content a b)).length⟩ ∧
      (mkCell content k a b).value =
        decodeComment (trimEnd ((jsSubstring content a b).drop 1)) := by
  simp only [mkCell] at h
  split at h
  · split at h
    · simp at h
    · split at h
      · rename_i hk hab hpre
        obtain ⟨t, ht⟩ := isPrefixOf_exists hpre
        have ht' : jsSubstring content a b = '\n' :: '\n' :: ';' :: ';' :: ' ' :: t := by
          rw [← ht]
          rfl
        have hidx : jsIndexOf markerPattern (jsSubstring content a b) = 1 := by
          rw [ht']
          exact jsIndexOf_marker t
        refine ⟨t, ht', ?_, ?_⟩
        · rw [hidx] at h
          simp at h
          exact h.symm
        · simp only [mkCell, hk, hab, hpre, if_pos, if_neg, hidx]
          simp [jsSubstringFrom]
      · simp at h
  · simp at h

theorem markerOk_cons (c : Char) (X : Text) :
    markerOk (c :: X) = ((c != '\n' || markerTail.isPrefixOf X) && markerOk X) := rfl

theorem markerOk_marker (rest : Text) :
    markerOk ('\n' :: ';' :: ';' :: ' ' :: rest) = markerOk rest := by
  simp only [markerOk_cons, markerTail, List.isPrefixOf_cons₂, List.isPrefixOf_nil_left]
  simp

theorem markerOk_tail (c : Char) (X : Text) (h : markerOk (c :: X) = true) :
    markerOk X = true := by
  rw [markerOk_cons, Bool.and_eq_true] at h
  exact h.2

theorem decodeComment_cons_ne (c : Char) (rest : Text)
    (h : ∀ rest1 : Text, c = '\n' → rest = ';' :: ';' :: ' ' :: rest1 → False) :
    decodeComment (c :: rest) = c :: decodeComment rest := by
  conv_lhs => rw [decodeComment.eq_def]
  split
  · rename_i rest1 heq
    injection heq with h1 h2
    exact (h rest1 h1 h2).elim
  · rename_i c2 rest2 hcond heq
    injection heq with h1 h2
    rw [h1, h2]
  · rename_i heq
    exact absurd heq (List.cons_ne_nil _ _)

/-- On text where every newline is followed by the marker, the joiner's
newline re-encoding inverts the splitter's marker removal exactly. -/
theorem encode_decode (s : Text) (h : markerOk s = true) :
    encodeComment (decodeComment s) = s := by
  induction s using decodeComment.induct with
  | case1 rest ih =>
    rw [markerOk_marker] at h
    rw [show decodeComment ('\n' :: ';' :: ';' :: ' ' :: rest) =
      '\n' :: decodeComment rest from rfl]
    rw [show encodeComment ('\n' :: decodeComment rest) =
      '\n' :: ';' :: ';' :: ' ' :: encodeComment (decodeComment rest) from rfl]
    rw [ih h]
  | case2 c rest hne ih =>
    have h' : markerOk rest = true := markerOk_tail c rest h
    rw [decodeComment_cons_ne c rest hne]
    by_cases hc : c = '\n'
    · subst hc
      rw [markerOk_cons, Bool.and_eq_true] at h
      have hp : markerTail.isPrefixOf rest = true := by simpa using h.1
      obtain ⟨t, ht⟩ := isPrefixOf_exists hp
      exact ((hne t rfl (by rw [← ht]; rfl))).elim
    · rw [show encodeComment (c :: decodeComment rest) =
        if c == '\n' then c :: ';' :: ';' :: ' ' :: encodeComment (decodeComment rest)
        else c :: encodeComment (decodeComment rest) from rfl]
      rw [if_neg (by simpa using hc)]
      rw [ih h']
  | case3 => rfl

theorem comment_value_head (t : Text) :
    (decodeComment (trimEnd ('\n' :: ';' :: ';' :: ' ' :: t))).head? = some '\n' := by
  have h1 : trimEnd (';' :: ';' :: ' ' :: t) ≠ [] := by
    rw [trimEnd_not_ws_cons _ _ (by decide)]
    exact List.cons_ne_nil _ _
  rw [decodeComment_head?, trimEnd_cons_of_ne_nil _ _ h1]
  rfl

theorem comment_value_ne_nil (t : Text) :
    decodeComment (trimEnd ('\n' :: ';' :: ';' :: ' ' :: t)) ≠ [] := by
  intro h
  have hh := comment_value_head t
  rw [h] at hh
  simp at hh

theorem jsSubstring_self (s : Text) (a : Nat) : jsSubstring s a a = [] := by
  simp [jsSubstring]

theorem jsSubstring_full (s : Text) : jsSubstring s 0 s.length = s := by
  simp [jsSubstring]

theorem jsSubstring_ne_nil (s : Text) (a b : Nat) (hab : a < b) (hb : b ≤ s.length) :
    jsSubstring s a b ≠ [] := by
  unfold jsSubstring
  rw [if_pos (le_of_lt hab)]
  intro hnil
  have hlen := congrArg List.length hnil
  simp [List.length_take, List.length_drop] at hlen
  omega

theorem jsSubstring_concat (s : Text) (a b c : Nat) (hab : a ≤ b) (hbc : b ≤ c) :
    jsSubstring s a b ++ jsSubstring s b c = jsSubstring s a c := by
  unfold jsSubstring
  rw [if_pos hab, if_pos hbc, if_pos (le_trans hab hbc)]
  have hdrop : s.drop b = (s.drop a).drop (b - a) := by
    rw [List.drop_drop]
    congr 1
    omega
  rw [hdrop, ← take_split]
  congr 1
  omega

theorem spansMono_le : ∀ (p : Nat) (spans : List (Nat × Nat)) (len : Nat),
    spansMono p spans len → p ≤ len
  | _, [], _, h => h
  | _, (_, e) :: rest, len, h =>
    le_trans h.1 (le_trans h.2.1 (spansMono_le e rest len h.2.2))

theorem zip_regionsAux : ∀ (spans : List (Nat × Nat)) (p len : Nat),
    List.zip (p :: (flatSpans spans ++ [len])).dropLast (flatSpans spans ++ [len]) =
      regionsAux p spans len := by
  intro spans
  induction spans with
  | nil => intro p len; rfl
  | cons se rest ih =>
    rcases se with ⟨s, e⟩
    intro p len
    show List.zip
        (p :: s :: e :: (flatSpans rest ++ [len])).dropLast
        (s :: e :: (flatSpans rest ++ [len]))
      = (p, s) :: (s, e) :: regionsAux e rest len
    rw [List.dropLast_cons₂, List.dropLast_cons₂, List.zip_cons_cons, List.zip_cons_cons,
      ih e len]

theorem regionList_eq (content : Text) (spans : List (Nat × Nat)) :
    regionList content spans = regionsAux 0 spans content.length := by
  simp only [regionList]
  exact zip_regionsAux spans 0 content.length

/-- The comment-derived branch of `mkCell`, with the first-marker offset
already computed to `1`. -/
theorem mkCell_comment (content : Text) (k a b : Nat) (hk : k % 2 = 0) (hab : a ≠ b)
    (hpre : commentLead.isPrefixOf (jsSubstring content a b) = true) :
    mkCell content k a b =
      ⟨decodeComment (trimEnd ((jsSubstring content a b).drop 1)), .Markup, mdLang,
        some ⟨true, 1,
          (jsSubstring content a b).length - (trimEnd (jsSubstring content a b)).length⟩⟩ := by
  have hkb : (k % 2 == 0) = true := by simpa using hk
  have hab' : (a == b) = false := by simpa [beq_eq_false_iff_ne] using hab
  obtain ⟨t, ht⟩ := isPrefixOf_exists hpre
  have ht' : jsSubstring content a b = '\n' :: '\n' :: ';' :: ';' :: ' ' :: t := by
    rw [← ht]
    rfl
  have hidx : jsIndexOf markerPattern (jsSubstring content a b) = 1 := by
    rw [ht']
    exact jsIndexOf_marker t
  simp only [mkCell, hkb, hab', hpre, if_true, Bool.false_eq_true, if_false, hidx]
  simp [jsSubstringFrom]

theorem mkCell_empty (content : Text) (k a : Nat) (hk : k % 2 = 0) :
    mkCell content k a a = ⟨[], .Markup, mdLang, none⟩ := by
  have hkb : (k % 2 == 0) = true := by simpa using hk
  simp [mkCell, hkb]

theorem writeCells_cons_some (cell : NotebookCellData) (cs : List NotebookCellData)
    (x y : Text) (hc : writeCell cell = some x) (hcs : writeCellsToClojure cs = some y) :
    writeCellsToClojure (cell :: cs) = some (x ++ y) := by
  simp only [writeCellsToClojure, hc, hcs]

/-- The reconstruction of one well-formed comment-derived separator region:
one leading newline, the re-encoded trimmed body, then the recorded number of
trailing newlines give back the region byte-for-byte. -/
theorem sep_write (R t : Text) (hR : R = '\n' :: '\n' :: ';' :: ';' :: ' ' :: t)
    (hws : ∀ c ∈ R.drop (trimEnd R).length, c = '\n')
    (hmk : markerOk (trimEnd (R.drop 1)) = true) :
    '\n' :: (encodeComment (decodeComment (trimEnd (R.drop 1)))
      ++ List.replicate (R.length - (trimEnd R).length) '\n') = R := by
  have hD : R.drop 1 = '\n' :: ';' :: ';' :: ' ' :: t := by
    rw [hR]
    rfl
  have h1 : trimEnd (R.drop 1) ≠ [] := by
    rw [hD]
    exact trimEnd_ne_nil (show (';' : Char) ∈ _ by simp) (by decide)
  have h2 : trimEnd R = '\n' :: trimEnd (R.drop 1) := by
    have hstep := trimEnd_cons_of_ne_nil '\n' (R.drop 1) h1
    rw [← hstep]
    congr 1
    rw [hR]
    rfl
  have hsuffix : R.drop (trimEnd R).length =
      List.replicate (R.length - (trimEnd R).length) '\n' := by
    have hlen : R.length - (trimEnd R).length = (R.drop (trimEnd R).length).length := by
      rw [List.length_drop]
    rw [hlen]
    exact List.eq_replicate_of_mem hws
  calc '\n' :: (encodeComment (decodeComment (trimEnd (R.drop 1)))
        ++ List.replicate (R.length - (trimEnd R).length) '\n')
      = '\n' :: (trimEnd (R.drop 1) ++ R.drop (trimEnd R).length) := by
        rw [encode_decode _ hmk, hsuffix]
    _ = trimEnd R ++ R.drop (trimEnd R).length := by rw [h2]; rfl
    _ = R := ((trimEnd_decomp R).1).symm

/-- Contribution of one separator cell to the joined text: an empty region
contributes nothing (the cell is filtered out), a well-formed comment-derived
region is reproduced verbatim. -/
theorem sep_cell_contribution (content : Text) (k p q : Nat) (hk : k % 2 = 0)
    (hpq : p ≤ q) (hq : q ≤ content.length)
    (hsep : sepOk (jsSubstring content p q))
    (cs : List NotebookCellData) (y : Text)
    (hcs : writeCellsToClojure (cs.filter (fun x => !x.value.isEmpty)) = some y) :
    writeCellsToClojure ((mkCell content k p q :: cs).filter (fun x => !x.value.isEmpty)) =
      some (jsSubstring content p q ++ y) := by
  by_cases hpq' : p = q
  · subst hpq'
    rw [mkCell_empty content k p hk, List.filter_cons]
    simp only [List.isEmpty_nil, Bool.not_true, Bool.false_eq_true, if_false]
    rw [hcs, jsSubstring_self]
    rfl
  · have hlt : p < q := lt_of_le_of_ne hpq hpq'
    have hRne : jsSubstring content p q ≠ [] := jsSubstring_ne_nil content p q hlt hq
    rcases hsep with hnil | ⟨hpre, hws, hmk⟩
    · exact absurd hnil hRne
    · have hcell := mkCell_comment content k p q hk hpq' hpre
      obtain ⟨t, ht⟩ := isPrefixOf_exists hpre
      have ht' : jsSubstring content p q = '\n' :: '\n' :: ';' :: ';' :: ' ' :: t := by
        rw [← ht]
        rfl
      have hvne : decodeComment (trimEnd ((jsSubstring content p q).drop 1)) ≠ [] := by
        rw [ht']
        exact comment_value_ne_nil t
      rw [hcell, List.filter_cons]
      have hkeep : (!(decodeComment (trimEnd ((jsSubstring content p q).drop 1))).isEmpty)
          = true := by
        simpa using hvne
      simp only [hkeep, if_true]
      apply writeCells_cons_some _ _ _ y _ hcs
      show writeCell _ = some (jsSubstring content p q)
      simp only [writeCell, if_true]
      exact congrArg some (sep_write (jsSubstring content p q) t ht' hws hmk)

/-- Contribution of one form (code) cell to the joined text: its span's
substring, verbatim (an empty span is filtered out and contributes the empty
substring). -/
theorem code_cell_contribution (content : Text) (k s e : Nat) (hk : k % 2 = 1)
    (cs : List NotebookCellData) (y : Text)
    (hcs : writeCellsToClojure (cs.filter (fun x => !x.value.isEmpty)) = some y) :
    writeCellsToClojure ((mkCell content k s e :: cs).filter (fun x => !x.value.isEmpty)) =
      some (jsSubstring content s e ++ y) := by
  rw [mkCell_odd content k s e hk, List.filter_cons]
  by_cases hR : jsSubstring content s e = []
  · simp only [hR, List.isEmpty_nil, Bool.not_true, Bool.false_eq_true, if_false]
    rw [hcs]
    rfl
  · have hkeep : (!(jsSubstring content s e).isEmpty) = true := by simpa using hR
    simp only [hkeep, if_true]
    exact writeCells_cons_some _ _ _ y rfl hcs

/-- Main induction for the round-trip law: joining the filtered cells built
from the region list starting at cursor `p` yields exactly the substring from
`p` to the end of the text. -/
theorem write_regions (content : Text) : ∀ (spans : List (Nat × Nat)) (p k : Nat),
    k % 2 = 0 → spansMono p spans content.length →
    (∀ g ∈ gaps p spans content.length, sepOk (jsSubstring content g.1 g.2)) →
    writeCellsToClojure
      ((mapWithIndex (fun i r => mkCell content i r.1 r.2) k
        (regionsAux p spans content.length)).filter (fun x => !x.value.isEmpty)) =
      some (jsSubstring content p content.length) := by
  intro spans
  induction spans with
  | nil =>
    intro p k hk hmono hsep
    have hgap := hsep (p, content.length) (by simp [gaps])
    show writeCellsToClojure
        ((mkCell content k p content.length :: []).filter (fun x => !x.value.isEmpty)) =
      some (jsSubstring content p content.length)
    have h := sep_cell_contribution content k p content.length hk hmono le_rfl hgap [] [] rfl
    simpa using h
  | cons se rest ih =>
    rcases se with ⟨s, e⟩
    intro p k hk hmono hsep
    obtain ⟨hps, hse, hrest⟩ := hmono
    have hel : e ≤ content.length := spansMono_le e rest _ hrest
    have hgap := hsep (p, s) (by simp [gaps])
    have hsep' : ∀ g ∈ gaps e rest content.length, sepOk (jsSubstring content g.1 g.2) :=
      fun g hg => hsep g (by simp [gaps, hg])
    have htail := ih e (k + 2) (by omega) hrest hsep'
    show writeCellsToClojure
        ((mkCell content k p s :: mkCell content (k + 1) s e ::
          mapWithIndex (fun i r => mkCell content i r.1 r.2) (k + 2)
            (regionsAux e rest content.length)).filter (fun x => !x.value.isEmpty)) =
      some (jsSubstring content p content.length)
    have hsl : s ≤ content.length := Nat.le_trans hse hel
    have hcode := code_cell_contribution content (k + 1) s e (by omega) _ _ htail
    have hall := sep_cell_contribution content k p s hk hps hsl hgap _ _ hcode
    rw [hall]
    congr 1
    rw [← List.append_assoc]
    rw [jsSubstring_concat content p s e hps hse,
      jsSubstring_concat content p e content.length (Nat.le_trans hps hse) hel]

/-! ## Claim theorems -/

/-- C3: splitting the text `"(+ 1 2)\n\n;; hello\n;; world\n\n(+ 3 4)"` with
form spans `[0,7)` and `[28,35)` yields exactly the Code cell `"(+ 1 2)"`, the
comment-derived Markup cell `"\nhello\nworld"` with metadata
`{asMarkdown: true, startingWhitespace: 1, endingWhitespace: 2}`, and the Code
cell `"(+ 3 4)"`; joining that document reproduces the original text
byte-identically. -/
theorem c3_concrete_scenario :
    parseClojure c3text c3spans =
      [⟨("(+ 1 2)").data, .Code, cljLang, none⟩,
       ⟨("\nhello\nworld").data, .Markup, mdLang, some ⟨true, 1, 2⟩⟩,
       ⟨("(+ 3 4)").data, .Code, cljLang, none⟩] ∧
    writeCellsToClojure (parseClojure c3text c3spans) = some c3text := by
  decide

/-- C2 (code bug): the claim says the Joiner raises no error on any document
the Splitter produces, but `writeCellsToClojure` reads `metadata.asMarkdown`
unconditionally on markup cells, and the Splitter emits plain markup cells
without metadata: splitting `"a\n(b)"` with span `[2,5)` produces such a cell
and joining it throws (evaluates to `none`). -/
theorem c2_joiner_crash :
    parseClojure c2text c2spans =
      [⟨("a\n").data, .Markup, mdLang, none⟩,
       ⟨("(b)").data, .Code, cljLang, none⟩] ∧
    writeCellsToClojure (parseClojure c2text c2spans) = none := by
  decide

/-- C1 (counterexample): the round-trip law as stated fails on the text
`"a\n(b)"` with span `[2,5)` — its only separator region is not
comment-derived, so the precondition about comment-derived regions is vacuous,
yet joining the split document does not return the text (the joiner throws on
the metadata-less prose cell). -/
theorem c1_claim_counterexample :
    ((parseClojure c2text c2spans).all fun c => c.metadata == none) = true ∧
    writeCellsToClojure (parseClojure c2text c2spans) ≠ some c2text := by
  decide

/-- C5 (counterexample): splitting `"\n\n;; a\n (x)"` with span `[8,11)` makes
the comment-derived cell record `endingWhitespace = 2`, while trimming the
separator region `[0,8)` strips only `1` trailing newline character (the other
stripped character is a space). -/
theorem c5_claim_counterexample :
    regionList c5text c5spans = [(0, 8), (8, 11), (11, 11)] ∧
    (parseClojure c5text c5spans).map (fun x => x.metadata) =
      [some ⟨true, 1, 2⟩, none] ∧
    ((jsSubstring c5text 0 8).drop (trimEnd (jsSubstring c5text 0 8)).length).count '\n'
      = 1 ∧
    (2 : Nat) ≠ 1 := by
  decide

/-- C5 (amended): for every comment-derived cell the recorded
`endingWhitespace` equals the number of trailing *whitespace* characters (not
only newlines) stripped from its region by `trimEnd`: the region splits into
its trimmed prefix plus an all-whitespace suffix whose length is the recorded
value. -/
theorem c5_trailing_whitespace (content : Text) (k a b : Nat) (m : CellMetadata)
    (h : (mkCell content k a b).metadata = some m) :
    jsSubstring content a b =
      trimEnd (jsSubstring content a b) ++
        (jsSubstring content a b).drop (trimEnd (jsSubstring content a b)).length ∧
    (∀ c ∈ (jsSubstring content a b).drop (trimEnd (jsSubstring content a b)).length,
      isWs c = true) ∧
    m.endingWhitespace =
      ((jsSubstring content a b).drop (trimEnd (jsSubstring content a b)).length).length := by
  obtain ⟨t, ht, hmeq, hval⟩ := mkCell_metadata_eq content k a b m h
  obtain ⟨hdecomp, hws⟩ := trimEnd_decomp (jsSubstring content a b)
  refine ⟨hdecomp, hws, ?_⟩
  rw [hmeq, List.length_drop]

theorem c5_trailing_whitespace_witness :
    (CellMetadata.mk true 1 2).endingWhitespace =
      ((jsSubstring c5text 0 8).drop (trimEnd (jsSubstring c5text 0 8)).length).length :=
  (c5_trailing_whitespace c5text 0 0 8 ⟨true, 1, 2⟩ (by decide)).2.2

/-- C4: in the intermediate cell list of the splitter (before the empty-value
filter) the cell built from the `i`-th region is Markup when `i` is even and
Code when `i` is odd; every Code cell's value is the verbatim substring of its
span; and the filtering step keeps the surviving cells in the same relative
order (the filtered list is a sublist of the unfiltered one). -/
theorem c4_alternation (content : Text) (spans : List (Nat × Nat)) :
    (∀ i cell, (parseRegions content spans)[i]? = some cell →
      (cell.kind = if i % 2 = 0 then CellKind.Markup else CellKind.Code) ∧
      (i % 2 = 1 → ∀ r, (regionList content spans)[i]? = some r →
        cell.value = jsSubstring content r.1 r.2)) ∧
    List.Sublist (parseClojure content spans) (parseRegions content spans) := by
  constructor
  · intro i cell hcell
    rw [parseRegions, mapWithIndex_getElem?] at hcell
    cases hr : (regionList content spans)[i]? with
    | none =>
      rw [hr] at hcell
      simp at hcell
    | some r =>
      rw [hr] at hcell
      simp only [Option.map_some'] at hcell
      injection hcell with hcell
      constructor
      · rw [← hcell, Nat.zero_add]
        exact mkCell_kind content i r.1 r.2
      · intro hodd r' hr'
        injection hr' with hr''
        subst hr''
        rw [← hcell, Nat.zero_add, mkCell_odd content i r.1 r.2 hodd]
  · exact List.filter_sublist _

theorem c4_alternation_witness :
    (parseRegions c3text c3spans)[3]? =
      some ⟨("(+ 3 4)").data, .Code, cljLang, none⟩ ∧
    (NotebookCellData.mk (("(+ 3 4)").data) .Code cljLang none).kind =
      (if 3 % 2 = 0 then CellKind.Markup else CellKind.Code) :=
  ⟨by decide,
    ((c4_alternation c3text c3spans).1 3 ⟨("(+ 3 4)").data, .Code, cljLang, none⟩
      (by decide)).1⟩

/-- C10: every comment-derived markup cell produced by the splitter records
`startingWhitespace = 1` — the first `'\n;; '` occurrence in a region starting
with `'\n\n;; '` is always at offset `1` — and its value always begins with a
newline character. -/
theorem c10_comment_invariant (content : Text) (spans : List (Nat × Nat)) :
    (∀ R : Text, commentLead.isPrefixOf R = true → jsIndexOf markerPattern R = 1) ∧
    (∀ cell ∈ parseClojure content spans, ∀ m, cell.metadata = some m →
      m.startingWhitespace = 1 ∧ cell.value.head? = some '\n') := by
  constructor
  · intro R hR
    obtain ⟨t, ht⟩ := isPrefixOf_exists hR
    rw [← ht]
    exact jsIndexOf_marker t
  · intro cell hcell m hm
    have hcell' : cell ∈ parseRegions content spans := List.mem_of_mem_filter hcell
    obtain ⟨k, r, hr, heq⟩ := mem_mapWithIndex hcell'
    subst heq
    obtain ⟨t, ht, hmeq, hval⟩ := mkCell_metadata_eq content k r.1 r.2 m hm
    constructor
    · rw [hmeq]
    · rw [hval, decodeComment_head?, ht]
      show (trimEnd ('\n' :: ';' :: ';' :: ' ' :: t)).head? = some '\n'
      have h1 : trimEnd (';' :: ';' :: ' ' :: t) ≠ [] := by
        rw [trimEnd_not_ws_cons _ _ (by decide)]
        exact List.cons_ne_nil _ _
      rw [trimEnd_cons_of_ne_nil _ _ h1]
      rfl

theorem c10_comment_invariant_witness :
    (CellMetadata.mk true 1 2).startingWhitespace = 1 ∧
      (NotebookCellData.mk (("\nhello\nworld").data) .Markup mdLang
        (some ⟨true, 1, 2⟩)).value.head? = some '\n' :=
  (c10_comment_invariant c3text c3spans).2
    ⟨("\nhello\nworld").data, .Markup, mdLang, some ⟨true, 1, 2⟩⟩ (by decide)
    ⟨true, 1, 2⟩ (by decide)

/-- C6: on a successful evaluation with raw result `r` and pretty form `p`,
the emitted outputs are, in order, `r` as plain text, the fenced code block
around `p` tagged markdown, and `r` again (byte-identical) under the EDN tag;
a fourth HTML-tagged output carrying the quote-stripped result is appended
exactly when the quote-stripped result starts with `'<html'`. -/
theorem c6_success_outputs (r p : Text) :
    (successOutputs r p).take 3 =
      [⟨plainMime, r⟩, ⟨mdMime, fenceOpen ++ p ++ fenceClose⟩, ⟨ednMime, r⟩] ∧
    (successOutputs r p).drop 3 =
      (if htmlMarker.isPrefixOf (stripQuotes r) then [⟨htmlMime, stripQuotes r⟩]
       else []) := by
  unfold successOutputs
  constructor <;> split <;> simp_all

/-- C7: every cell of a run produces exactly one record, and the outcome of
the `i`-th record is a function of that cell's own evaluator behaviour alone —
in particular a failure of any earlier cell neither removes nor changes the
records of the later cells. -/
theorem c7_fault_isolation (env : Nat → Text → CellEnv) (cells : List Text) (idx t : Nat) :
    (executeAll env cells idx t).length = cells.length ∧
    (executeAll env cells idx t).map (fun r => r.outcome) =
      mapWithIndex (fun i c => outcomeOf (env i c)) idx cells := by
  induction cells generalizing idx t with
  | nil => exact ⟨rfl, rfl⟩
  | cons c rest ih =>
    refine ⟨?_, ?_⟩
    · simp only [executeAll, List.length_cons]
      rw [(ih (idx + 1) _).1]
    · simp only [executeAll, List.map_cons, mapWithIndex]
      rw [(ih (idx + 1) _).2]
      rfl

/-- C8 (counterexample): the claim says an error object's `name` and `message`
are always carried over, but the source uses JavaScript `||`, so a thrown
`Error` whose `name` is the empty string yields the fallback tag `'error'`
instead of that (empty) name. -/
theorem c8_claim_counterexample :
    c8err.isError = true ∧ (errorDescriptor c8err).name ≠ c8err.name := by
  decide

/-- C8 (amended): the descriptor carries the thrown error object's `name` and
`message` when they are non-empty; an empty (falsy) `name` falls back to the
tag `'error'` and an empty `message` falls back to the JSON rendering of the
thrown value, independently; for non-error values both fallbacks apply. -/
theorem c8_error_fallback (e : JsThrown) :
    (e.isError = true → e.name ≠ [] → (errorDescriptor e).name = e.name) ∧
    (e.isError = true → e.message ≠ [] → (errorDescriptor e).message = e.message) ∧
    (e.isError = false →
      (errorDescriptor e).name = errorName ∧ (errorDescriptor e).message = e.json) ∧
    (e.name = [] → (errorDescriptor e).name = errorName) ∧
    (e.message = [] → (errorDescriptor e).message = e.json) := by
  refine ⟨?_, ?_, ?_, ?_, ?_⟩
  · intro h1 h2
    simp [errorDescriptor, h1, h2]
  · intro h1 h2
    simp [errorDescriptor, h1, h2]
  · intro h1
    simp [errorDescriptor, h1]
  · intro h1
    simp [errorDescriptor, h1]
  · intro h1
    simp [errorDescriptor, h1]

theorem c8_error_fallback_witness :
    (errorDescriptor c8err2).name = c8err2.name :=
  (c8_error_fallback c8err2).1 (by decide) (by decide)

/-- C9: a run emits exactly one record per cell in document order; each record
has `startedAt ≤ endedAt`, no record starts before the time the run was
entered, and each record is fully ended no later than the start of the next
one (strictly sequential execution). -/
theorem c9_sequential_execution (env : Nat → Text → CellEnv) (cells : List Text)
    (idx t : Nat) :
    (executeAll env cells idx t).length = cells.length ∧
    (∀ r ∈ executeAll env cells idx t, r.startedAt ≤ r.endedAt ∧ t ≤ r.startedAt) ∧
    List.Chain' (fun a b => a.endedAt ≤ b.startedAt) (executeAll env cells idx t) := by
  induction cells generalizing idx t with
  | nil => exact ⟨rfl, by simp [executeAll], by simp [executeAll]⟩
  | cons c rest ih =>
    obtain ⟨ihlen, ihmem, ihchain⟩ :=
      ih (idx + 1) (doExecution (env idx c) (t + (env idx c).gap)).endedAt
    refine ⟨?_, ?_, ?_⟩
    · simp only [executeAll, List.length_cons]
      rw [ihlen]
    · intro r hr
      simp only [executeAll] at hr
      rcases List.mem_cons.mp hr with heq | hmem
      · subst heq
        simp only [doExecution]
        omega
      · obtain ⟨hse, hts⟩ := ihmem r hmem
        refine ⟨hse, le_trans ?_ hts⟩
        simp only [doExecution]
        omega
    · simp only [executeAll]
      rw [List.chain'_cons']
      constructor
      · intro y hy
        exact (ihmem y (List.mem_of_mem_head? hy)).2
      · exact ihchain

theorem c9_sequential_execution_witness :
    rec0 ∈ executeAll env0 cells0 0 0 ∧ rec0.startedAt ≤ rec0.endedAt :=
  ⟨by decide, ((c9_sequential_execution env0 cells0 0 0).2.1 rec0 (by decide)).1⟩

/-- C1 (amended): the round-trip law `join (split T S) = T` holds for every
text and every monotone, in-bounds span set, provided every separator region
is either empty or comment-derived with (i) the `'\n\n;; '` lead, (ii) a
trailing-whitespace run consisting solely of newline characters, and (iii)
every newline of its trimmed tail followed by the marker `';; '` (uniformly
prefixed content lines).  Without the strengthened conditions the law fails:
plain prose regions crash the joiner (see the counterexample) and trailing
spaces are re-emitted as newlines. -/
theorem c1_round_trip (content : Text) (spans : List (Nat × Nat))
    (hmono : spansMono 0 spans content.length)
    (hsep : ∀ g ∈ gaps 0 spans content.length, sepOk (jsSubstring content g.1 g.2)) :
    writeCellsToClojure (parseClojure content spans) = some content := by
  have h := write_regions content spans 0 0 rfl hmono hsep
  rw [jsSubstring_full] at h
  simp only [parseClojure, parseRegions, regionList_eq]
  exact h

theorem c1_round_trip_witness :
    writeCellsToClojure (parseClojure c3text c3spans) = some c3text :=
  c1_round_trip c3text c3spans (by decide) (by decide)
